import Mathlib

/-!
Verification of the byteyarn packed string representation, its owning and
reference handles, the UTF-8 chunk decoder, and the `yarn!` / `byarn!`
macro entry points.  The implementation modules (`raw`, `boxed`/`yarn`,
`reffed`/`yarn_ref`, `utf8`, `convert`) are not part of the published
sources here, so the definitions below are modelled from the specification
and checked for internal consistency against the crate documentation and
macro code that is available.
-/

namespace ByteYarn

/-- The four variants of the packed representation. -/
inductive Variant where
  | inline
  | borrowed
  | static
  | owned
deriving DecidableEq, Repr

/-- Modelled from the spec: the packed representation of a yarn
(`raw` module, missing from the sources).  Logically a discriminated
union: a variant tag, a pointer (0 and unused for `inline`), and the byte
sequence the handle denotes (stored inline or behind the pointer). -/
structure RawYarn where
  variant : Variant
  ptr : Nat
  bytes : List Nat
deriving DecidableEq, Repr

/-- The small-buffer threshold on a 64-bit target: 15 bytes. -/
def inlineThreshold : Nat := 15

/-- Well-formedness of a packed representation: bytes are bytes, inline
data fits under the threshold and uses no pointer, pointer variants hold a
non-null 64-bit pointer, and the length fits in the header field. -/
def RawYarn.WF (y : RawYarn) : Prop :=
  (∀ b ∈ y.bytes, b < 256) ∧
  (y.variant = .inline → y.bytes.length ≤ inlineThreshold ∧ y.ptr = 0) ∧
  (y.variant ≠ .inline → y.ptr ≠ 0 ∧ y.ptr < 2 ^ 64) ∧
  y.bytes.length < 2 ^ 58

instance (y : RawYarn) : Decidable y.WF := by
  unfold RawYarn.WF; infer_instance

/-- The byte view of a handle, independent of the backing variant. -/
def RawYarn.asSlice (y : RawYarn) : List Nat := y.bytes

/-- Modelled from the spec: `inline(bytes)` stores bytes directly. -/
def mkInline (bs : List Nat) : RawYarn := ⟨.inline, 0, bs⟩

/-- Modelled from the spec: `from_borrowed(slice, lifetime)` is `Borrowed`
if the length exceeds the inline threshold, else `Inline`. -/
def fromBorrowed (p : Nat) (bs : List Nat) : RawYarn :=
  if bs.length ≤ inlineThreshold then mkInline bs else ⟨.borrowed, p, bs⟩

/-- Modelled from the spec: `from_static(slice)` is `Static` unless small
enough to inline. -/
def fromStatic (p : Nat) (bs : List Nat) : RawYarn :=
  if bs.length ≤ inlineThreshold then mkInline bs else ⟨.static, p, bs⟩

/-- Modelled from the spec: `from_owned_bytes(sequence)` is always
`Owned`, holding the heap buffer at `p`. -/
def fromOwnedBytes (p : Nat) (bs : List Nat) : RawYarn := ⟨.owned, p, bs⟩

/-! ## Two-word bit-level encoding (C1, C8)

Modelled from the spec: the representation is a hand-packed two-machine-word
layout; the variant and, for non-inline variants, the length live in fixed
header bits of the first word; inline data is packed into the remaining
bits; the all-zero pattern is reserved for "no value". -/

/-- The two-bit variant tag.  `borrowed` takes tag 0; its non-null pointer
keeps the all-zero pattern unreachable. -/
def tagOf : Variant → Nat
  | .borrowed => 0
  | .inline => 1
  | .static => 2
  | .owned => 3

/-- Pack a byte list into a natural, little-endian base 256. -/
def packBytes : List Nat → Nat
  | [] => 0
  | b :: bs => b + 256 * packBytes bs

/-- Unpack `k` little-endian base-256 digits. -/
def unpackBytes : Nat → Nat → List Nat
  | _, 0 => []
  | n, k + 1 => n % 256 :: unpackBytes (n / 256) k

/-- Modelled from the spec: encode a packed representation into exactly
two 64-bit machine words.  Word 0 holds the 2-bit tag in its top bits;
for the inline variant it also holds the 4-bit length and inline bytes
8..14, with bytes 0..7 in word 1; for pointer variants it holds the
length, with the pointer in word 1. -/
def encodeWords (y : RawYarn) : Nat × Nat :=
  match y.variant with
  | .inline =>
      (tagOf .inline * 2 ^ 62 + y.bytes.length * 2 ^ 58 +
        packBytes (y.bytes.drop 8),
       packBytes (y.bytes.take 8))
  | v => (tagOf v * 2 ^ 62 + y.bytes.length, y.ptr)

/-- Modelled from the spec: the zero-cost optional wrapper.  `none` is
the reserved all-zero pattern; a present handle keeps its encoding. -/
def encodeOpt : Option RawYarn → Nat × Nat
  | none => (0, 0)
  | some y => encodeWords y

/-- Recover the variant from the header bits of word 0 alone. -/
def decodeVariant (w : Nat × Nat) : Variant :=
  if w.1 / 2 ^ 62 = 0 then .borrowed
  else if w.1 / 2 ^ 62 = 1 then .inline
  else if w.1 / 2 ^ 62 = 2 then .static
  else .owned

/-- Recover the byte length of a non-inline representation from word 0. -/
def decodeLenWord (w : Nat × Nat) : Nat := w.1 % 2 ^ 58

/-- Read the inline bytes back out of the two words. -/
def decodeInline (w : Nat × Nat) : List Nat :=
  (unpackBytes w.2 8 ++ unpackBytes (w.1 % 2 ^ 56) 7).take (w.1 / 2 ^ 58 % 16)

/-! ## Handles, immortalization, comparison (C2, C7) -/

/-- Modelled from the spec: `Yarn::try_immortalize` succeeds only if the
representation is `Static` or `Inline`; otherwise it fails and returns
the original handle unchanged. -/
def tryImmortalize (y : RawYarn) : Except RawYarn RawYarn :=
  match y.variant with
  | .inline => .ok y
  | .static => .ok y
  | .borrowed => .error y
  | .owned => .error y

/-- The reference handle's variants: it never owns a heap buffer. -/
inductive RefVariant where
  | inline
  | borrowed
  | static
deriving DecidableEq, Repr

/-- Modelled from the spec: a reference handle (`reffed` / `yarn_ref`
module, missing from the sources) shares the packed layout but is
restricted to non-owning variants. -/
structure YarnRef where
  rvariant : RefVariant
  ptr : Nat
  bytes : List Nat
deriving DecidableEq, Repr

/-- The reference handle's byte view. -/
def YarnRef.asSlice (r : YarnRef) : List Nat := r.bytes

/-- Modelled from the spec: `YarnRef::immortalize` succeeds iff the
underlying bytes are `Static` or `Inline`, returning `none` otherwise. -/
def immortalizeRef (r : YarnRef) : Option YarnRef :=
  match r.rvariant with
  | .inline => some r
  | .static => some r
  | .borrowed => none

/-- Lexicographic byte-wise comparison. -/
def byteCompare : List Nat → List Nat → Ordering
  | [], [] => .eq
  | [], _ :: _ => .lt
  | _ :: _, [] => .gt
  | a :: as, b :: bs =>
      if a < b then .lt else if b < a then .gt else byteCompare as bs

/-- Modelled from the spec: a byte-wise hash (standard hash primitives
layered mechanically on the byte view), here a 64-bit polynomial hash. -/
def hashBytes (bs : List Nat) : Nat :=
  bs.foldl (fun h b => (h * 31 + b) % 2 ^ 64) 5381

/-- Equality of handles: byte-wise over `asSlice`. -/
def yarnBeq (y z : RawYarn) : Bool := y.asSlice == z.asSlice

/-- Ordering of handles: byte-wise over `asSlice`. -/
def yarnCmp (y z : RawYarn) : Ordering := byteCompare y.asSlice z.asSlice

/-- Hashing of handles: byte-wise over `asSlice`. -/
def yarnHash (y : RawYarn) : Nat := hashBytes y.asSlice

/-! ## UTF-8 validity and the chunk decoder (C3, C4, C6, C10) -/

/-- Is `b` a UTF-8 continuation byte? -/
def isCont (b : Nat) : Bool := decide (0x80 ≤ b ∧ b ≤ 0xBF)

/-- Constraint on the second byte of a three-byte sequence with lead
`b0`: excludes overlong forms (`E0`) and surrogates (`ED`). -/
def okE (b0 b1 : Nat) : Bool :=
  if b0 = 0xE0 then decide (0xA0 ≤ b1 ∧ b1 ≤ 0xBF)
  else if b0 = 0xED then decide (0x80 ≤ b1 ∧ b1 ≤ 0x9F)
  else isCont b1

/-- Constraint on the second byte of a four-byte sequence with lead
`b0`: excludes overlong forms (`F0`) and values above `U+10FFFF` (`F4`). -/
def okF (b0 b1 : Nat) : Bool :=
  if b0 = 0xF0 then decide (0x90 ≤ b1 ∧ b1 ≤ 0xBF)
  else if b0 = 0xF4 then decide (0x80 ≤ b1 ∧ b1 ≤ 0x8F)
  else isCont b1

/-- Length of the well-formed UTF-8 scalar sequence at the head of the
input, or `none` when the input does not start with one. -/
def seqLen (bs : List Nat) : Option Nat :=
  match bs with
  | [] => none
  | b0 :: tail =>
      if b0 < 0x80 then some 1
      else if b0 < 0xC2 then none
      else if b0 ≤ 0xDF then
        match tail with
        | b1 :: _ => if isCont b1 then some 2 else none
        | [] => none
      else if b0 ≤ 0xEF then
        match tail with
        | b1 :: b2 :: _ => if okE b0 b1 && isCont b2 then some 3 else none
        | _ => none
      else if b0 ≤ 0xF4 then
        match tail with
        | b1 :: b2 :: b3 :: _ =>
            if okF b0 b1 && isCont b2 && isCont b3 then some 4 else none
        | _ => none
      else none

/-- Does `s` consist of exactly one well-formed UTF-8 scalar sequence?
This is the reference shape-by-shape description of well-formedness,
independent of the streaming decoder. -/
def isScalarSeq (s : List Nat) : Bool :=
  match s with
  | [a] => decide (a < 0x80)
  | [a, b] => decide (0xC2 ≤ a ∧ a ≤ 0xDF) && isCont b
  | [a, b, c] => decide (0xE0 ≤ a ∧ a ≤ 0xEF) && okE a b && isCont c
  | [a, b, c, d] =>
      decide (0xF0 ≤ a ∧ a ≤ 0xF4) && okF a b && isCont c && isCont d
  | _ => false

/-- A byte list is well-formed UTF-8: a concatenation of well-formed
scalar sequences. -/
inductive Utf8WF : List Nat → Prop where
  | nil : Utf8WF []
  | cons (s rest : List Nat) : isScalarSeq s = true → Utf8WF rest →
      Utf8WF (s ++ rest)

/-- One step bound: the greedy scan over well-formed scalar sequences,
with explicit fuel (each step consumes at least one byte, so fuel equal
to the buffer length suffices; see `validPrefixLen_eq`). -/
def vplFuel : Nat → List Nat → Nat
  | 0, _ => 0
  | fuel + 1, bs =>
      match seqLen bs with
      | some n => n + vplFuel fuel (bs.drop n)
      | none => 0

/-- Length of the longest well-formed UTF-8 prefix of `bs`. -/
def validPrefixLen (bs : List Nat) : Nat := vplFuel bs.length bs

/-- A chunk produced by the decoder: a run of well-formed text, or a
single invalid byte. -/
inductive Chunk where
  | valid (bytes : List Nat)
  | invalid (byte : Nat)
deriving DecidableEq, Repr

/-- The bytes a chunk stands for. -/
def chunkBytes : Chunk → List Nat
  | .valid v => v
  | .invalid b => [b]

/-- The decoder loop with explicit fuel (the sequence is bounded by the
buffer length; see `utf8Chunks_eq`). -/
def chunksFuel : Nat → List Nat → List Chunk
  | 0, _ => []
  | fuel + 1, bs =>
      match bs with
      | [] => []
      | b :: tail =>
          let n := validPrefixLen (b :: tail)
          if n = 0 then Chunk.invalid b :: chunksFuel fuel tail
          else Chunk.valid ((b :: tail).take n) ::
            chunksFuel fuel ((b :: tail).drop n)

/-- Modelled from the spec: `utf8_chunks` (the `utf8` module, missing
from the sources) — decompose a byte buffer into maximal well-formed
text runs and single invalid bytes. -/
def utf8Chunks (bs : List Nat) : List Chunk := chunksFuel bs.length bs

/-- The specification relation for the decoder: each step emits either
the longest non-empty well-formed prefix of the remaining input, or,
when no non-empty well-formed prefix exists, exactly one invalid byte. -/
inductive ChunksSpec : List Nat → List Chunk → Prop where
  | nil : ChunksSpec [] []
  | text (v rest : List Nat) (cs : List Chunk) : v ≠ [] → Utf8WF v →
      (∀ p, (∃ t, p ++ t = v ++ rest) → Utf8WF p → p.length ≤ v.length) →
      ChunksSpec rest cs → ChunksSpec (v ++ rest) (.valid v :: cs)
  | bad (b : Nat) (rest : List Nat) (cs : List Chunk) :
      (∀ p, (∃ t, p ++ t = b :: rest) → Utf8WF p → p = []) →
      ChunksSpec rest cs → ChunksSpec (b :: rest) (.invalid b :: cs)

/-- A byte that cannot start any well-formed sequence: a continuation
byte, an overlong two-byte lead, or a lead above `F4`. -/
def noStart (b : Nat) : Bool := decide (0x80 ≤ b ∧ b ≤ 0xC1 ∨ 0xF5 ≤ b)

/-! ## Formatting (C3) -/

/-- UTF-8 encoding of the Unicode replacement character `U+FFFD`. -/
def repl : List Nat := [0xEF, 0xBF, 0xBD]

/-- Uppercase hexadecimal digit, as an ASCII byte. -/
def hexDigit (n : Nat) : Nat := if n < 10 then 0x30 + n else 0x37 + n

/-- Modelled from the spec: `Debug` renders a text chunk verbatim and an
invalid byte as a `\xNN` escape. -/
def debugChunk : Chunk → List Nat
  | .valid v => v
  | .invalid b => [0x5C, 0x78, hexDigit (b / 16 % 16), hexDigit (b % 16)]

/-- Modelled from the spec: the `Debug` rendering — the chunk renderings
between double quotes, as output bytes. -/
def debugBytes (bs : List Nat) : List Nat :=
  0x22 :: ((utf8Chunks bs).flatMap debugChunk ++ [0x22])

/-- The `Display` formatter's walk over the chunk sequence: text chunks
verbatim; a replacement character only when an invalid chunk begins a
run (the flag records being inside an invalid run). -/
def displayGoF : Bool → List Chunk → List Nat
  | _, [] => []
  | _, .valid v :: cs => v ++ displayGoF false cs
  | false, .invalid _ :: cs => repl ++ displayGoF true cs
  | true, .invalid _ :: cs => displayGoF true cs

/-- Modelled from the spec: the `Display` rendering — well-formed runs
verbatim, one replacement character per maximal invalid run. -/
def displayBytes (bs : List Nat) : List Nat :=
  displayGoF false (utf8Chunks bs)

/-- A chunk sequence with consecutive invalid bytes grouped: a text run,
or a maximal run of `n` invalid bytes. -/
inductive Item where
  | text (v : List Nat)
  | badRun (n : Nat)
deriving DecidableEq, Repr

/-- Group consecutive invalid chunks into maximal runs. -/
def collapse : List Chunk → List Item
  | [] => []
  | .valid v :: cs => .text v :: collapse cs
  | .invalid _ :: cs =>
      match collapse cs with
      | .badRun n :: is => .badRun (n + 1) :: is
      | is => .badRun 1 :: is

/-- Render one grouped item: text verbatim, exactly one replacement
character for a whole invalid run. -/
def renderItem : Item → List Nat
  | .text v => v
  | .badRun _ => repl

/-- Is this chunk an invalid byte? -/
def isInvalidChunk : Chunk → Bool
  | .invalid _ => true
  | .valid _ => false

/-- Drop one leading invalid run from a grouped sequence, if any. -/
def stripBad : List Item → List Item
  | .badRun _ :: is => is
  | is => is

/-! ## Conversions and macro entry points (C5, C6, C10) -/

/-- Modelled from the spec: the fallible byte-to-text conversion.  It
validates the bytes; on failure the caller receives the original bytes
back unchanged as the error value (`InvalidEncoding`). -/
def bytesToText (bs : List Nat) : Except (List Nat) (List Nat) :=
  if validPrefixLen bs = bs.length then .ok bs else .error bs

/-- Modelled from the spec: the infallible text-to-byte conversion —
the same bytes, never recopied, never failing. -/
def textToBytes (t : List Nat) : List Nat := t

/-- A Unicode scalar value: below `U+110000` and not a surrogate. -/
def isScalar (c : Nat) : Prop :=
  c < 0x110000 ∧ ¬(0xD800 ≤ c ∧ c ≤ 0xDFFF)

instance (c : Nat) : Decidable (isScalar c) := by
  unfold isScalar; infer_instance

/-- UTF-8 encoding of one Unicode scalar value. -/
def utf8EncodeChar (c : Nat) : List Nat :=
  if c < 0x80 then [c]
  else if c < 0x800 then [0xC0 + c / 64, 0x80 + c % 64]
  else if c < 0x10000 then
    [0xE0 + c / 4096, 0x80 + c / 64 % 64, 0x80 + c % 64]
  else
    [0xF0 + c / 0x40000, 0x80 + c / 4096 % 64, 0x80 + c / 64 % 64,
      0x80 + c % 64]

/-- Modelled from the spec: a format job is an opaque render-into-a-sink
request; its result is the UTF-8 encoding of the rendered scalar values. -/
def renderFmt (job : List Nat) : List Nat := job.flatMap utf8EncodeChar

/-- The model's address of the freshly allocated buffer a format job
renders into (any non-null pointer). -/
def freshPtr : Nat := 1

/-- Modelled from the spec: `Yarn::from_fmt` / `from_formatted` renders
the job into a freshly allocated buffer and returns an `Owned` handle. -/
def fromFmtText (job : List Nat) : RawYarn :=
  ⟨.owned, freshPtr, renderFmt job⟩

/-- Modelled from the spec: `into_bytes` — the text-to-byte capability
cast on a handle, sharing the same bytes. -/
def intoBytes (y : RawYarn) : RawYarn := y

/-- The `yarn!` macro's format arm (from `src/src/lib.rs`):
`Yarn::<'static, str>::from_fmt(format_args!(...))`. -/
def yarnMacroFmt (job : List Nat) : RawYarn := fromFmtText job

/-- The `byarn!` macro's format arm (from `src/src/lib.rs`):
`Yarn::<'static, str>::from_fmt(format_args!(...)).into_bytes()`. -/
def byarnMacroFmt (job : List Nat) : RawYarn := intoBytes (fromFmtText job)

/-! ### Packing lemmas -/

theorem packBytes_lt (bs : List Nat) (h : ∀ b ∈ bs, b < 256) :
    packBytes bs < 256 ^ bs.length := by
  induction bs with
  | nil => simp [packBytes]
  | cons b rest ih =>
      have hb : b < 256 := h b (List.mem_cons_self b rest)
      have hr : packBytes rest < 256 ^ rest.length :=
        ih fun x hx => h x (List.mem_cons_of_mem b hx)
      simp only [packBytes, List.length_cons, pow_succ]
      calc b + 256 * packBytes rest
          < 256 + 256 * packBytes rest := by omega
        _ = 256 * (packBytes rest + 1) := by ring
        _ ≤ 256 * 256 ^ rest.length := by
            exact Nat.mul_le_mul_left 256 (by omega)
        _ = 256 ^ rest.length * 256 := by ring

theorem unpackBytes_zero (k : Nat) :
    unpackBytes 0 k = List.replicate k 0 := by
  induction k with
  | zero => rfl
  | succ k ih => simp [unpackBytes, ih, List.replicate_succ]

theorem unpack_pack (bs : List Nat) (k : Nat) (hb : ∀ b ∈ bs, b < 256)
    (hk : bs.length ≤ k) :
    unpackBytes (packBytes bs) k = bs ++ List.replicate (k - bs.length) 0 := by
  induction bs generalizing k with
  | nil => simp [packBytes, unpackBytes_zero]
  | cons b rest ih =>
      match k with
      | 0 => simp at hk
      | k + 1 =>
          have hb0 : b < 256 := hb b (List.mem_cons_self b rest)
          have hmod : (b + 256 * packBytes rest) % 256 = b := by
            omega
          have hdiv : (b + 256 * packBytes rest) / 256 = packBytes rest := by
            omega
          simp only [packBytes, unpackBytes, hmod, hdiv]
          have hk' : rest.length ≤ k := by
            simpa using hk
          rw [ih k (fun x hx => hb x (List.mem_cons_of_mem b hx)) hk']
          simp [List.length_cons, Nat.succ_sub_succ]

theorem packBytes_take_lt (bs : List Nat) (hb : ∀ b ∈ bs, b < 256)
    (k : Nat) : packBytes (bs.take k) < 256 ^ k := by
  have h1 : packBytes (bs.take k) < 256 ^ (bs.take k).length :=
    packBytes_lt _ (fun x hx => hb x (List.take_subset k bs hx))
  have h2 : (256 : Nat) ^ (bs.take k).length ≤ 256 ^ k :=
    Nat.pow_le_pow_right (by norm_num) (by simp [List.length_take])
  omega

theorem packBytes_drop8_lt (bs : List Nat) (hb : ∀ b ∈ bs, b < 256)
    (hlen : bs.length ≤ inlineThreshold) :
    packBytes (bs.drop 8) < 2 ^ 56 := by
  have h1 : packBytes (bs.drop 8) < 256 ^ (bs.drop 8).length :=
    packBytes_lt _ (fun x hx => hb x (List.drop_subset 8 bs hx))
  have h2 : (256 : Nat) ^ (bs.drop 8).length ≤ 256 ^ 7 := by
    apply Nat.pow_le_pow_right (by norm_num)
    simp [List.length_drop]
    unfold inlineThreshold at hlen
    omega
  calc packBytes (bs.drop 8) < 256 ^ 7 := by omega
    _ ≤ 2 ^ 56 := by norm_num

/-- Inline round trip at the bit level: the bytes stored by `inline`
come back out of the two-word encoding unchanged. -/
theorem decodeInline_encode (bs : List Nat) (hb : ∀ b ∈ bs, b < 256)
    (hlen : bs.length ≤ inlineThreshold) :
    decodeInline (encodeWords (mkInline bs)) = bs := by
  unfold inlineThreshold at hlen
  have hp2 : packBytes (bs.drop 8) < 2 ^ 56 := packBytes_drop8_lt bs hb hlen
  simp only [encodeWords, mkInline, tagOf, decodeInline]
  have e1 : (1 * 2 ^ 62 + bs.length * 2 ^ 58 + packBytes (bs.drop 8)) %
      2 ^ 56 = packBytes (bs.drop 8) := by
    omega
  have e2 : (1 * 2 ^ 62 + bs.length * 2 ^ 58 + packBytes (bs.drop 8)) /
      2 ^ 58 % 16 = bs.length := by
    omega
  rw [e1, e2]
  rw [unpack_pack (bs.take 8) 8 (fun x hx => hb x (List.take_subset 8 bs hx))
    (by simp [List.length_take])]
  rw [unpack_pack (bs.drop 8) 7 (fun x hx => hb x (List.drop_subset 8 bs hx))
    (by simp [List.length_drop]; omega)]
  by_cases h8 : bs.length ≤ 8
  · have ht : bs.take 8 = bs := List.take_of_length_le h8
    have hd : bs.drop 8 = [] := List.drop_eq_nil_of_le h8
    rw [ht, hd]
    simp only [List.nil_append, List.append_assoc]
    exact List.take_left' rfl
  · have ht8 : (bs.take 8).length = 8 := by
      simp [List.length_take]; omega
    rw [ht8]
    simp only [Nat.sub_self, List.replicate_zero, List.append_nil]
    rw [← List.append_assoc, List.take_append_drop]
    exact List.take_left' rfl

/-- Every well-formed encoding fits in two 64-bit machine words. -/
theorem encodeWords_bounds (y : RawYarn) (h : y.WF) :
    (encodeWords y).1 < 2 ^ 64 ∧ (encodeWords y).2 < 2 ^ 64 := by
  obtain ⟨v, p, bs⟩ := y
  obtain ⟨hb, hinl, hptr, hlen⟩ := h
  dsimp only at hb hinl hptr hlen
  cases v
  case inline =>
    obtain ⟨hl15, -⟩ := hinl rfl
    have h1 : packBytes (bs.drop 8) < 2 ^ 56 := packBytes_drop8_lt bs hb hl15
    have h2 : packBytes (bs.take 8) < 256 ^ 8 := packBytes_take_lt bs hb 8
    unfold inlineThreshold at hl15
    have h2' : packBytes (bs.take 8) < 2 ^ 64 := by
      calc packBytes (bs.take 8) < 256 ^ 8 := h2
        _ ≤ 2 ^ 64 := by norm_num
    simp only [encodeWords, tagOf]
    exact ⟨by omega, by omega⟩
  all_goals
    obtain ⟨-, hp64⟩ := hptr (by simp)
    simp only [encodeWords, tagOf]
    exact ⟨by omega, by omega⟩

/-- No well-formed handle encodes to the all-zero pattern. -/
theorem encodeWords_ne_zero (y : RawYarn) (h : y.WF) :
    encodeWords y ≠ (0, 0) := by
  obtain ⟨v, p, bs⟩ := y
  obtain ⟨hb, hinl, hptr, hlen⟩ := h
  dsimp only at hb hinl hptr hlen
  cases v
  case borrowed =>
    obtain ⟨hp0, -⟩ := hptr (by simp)
    simp only [encodeWords, tagOf]
    intro hcontra
    exact hp0 (congrArg Prod.snd hcontra)
  all_goals
    simp only [encodeWords, tagOf]
    intro hcontra
    have hfst := congrArg Prod.fst hcontra
    dsimp only at hfst
    omega

/-- The variant is recoverable from the header bits of word 0 alone. -/
theorem decodeVariant_encodeWords (y : RawYarn) (h : y.WF) :
    decodeVariant (encodeWords y) = y.variant := by
  obtain ⟨v, p, bs⟩ := y
  obtain ⟨hb, hinl, hptr, hlen⟩ := h
  dsimp only at hb hinl hptr hlen
  cases v
  case inline =>
    obtain ⟨hl15, -⟩ := hinl rfl
    have h1 : packBytes (bs.drop 8) < 2 ^ 56 := packBytes_drop8_lt bs hb hl15
    unfold inlineThreshold at hl15
    have hdiv : (encodeWords ⟨.inline, p, bs⟩).1 / 2 ^ 62 = 1 := by
      simp only [encodeWords, tagOf]
      omega
    unfold decodeVariant
    rw [hdiv]
    norm_num
  case borrowed =>
    have hdiv : (encodeWords ⟨.borrowed, p, bs⟩).1 / 2 ^ 62 = 0 := by
      simp only [encodeWords, tagOf]
      omega
    unfold decodeVariant
    rw [hdiv]
    norm_num
  case static =>
    have hdiv : (encodeWords ⟨.static, p, bs⟩).1 / 2 ^ 62 = 2 := by
      simp only [encodeWords, tagOf]
      omega
    unfold decodeVariant
    rw [hdiv]
    norm_num
  case owned =>
    have hdiv : (encodeWords ⟨.owned, p, bs⟩).1 / 2 ^ 62 = 3 := by
      simp only [encodeWords, tagOf]
      omega
    unfold decodeVariant
    rw [hdiv]
    norm_num

/-- For non-inline variants the byte length is recoverable from the
header bits of word 0 alone. -/
theorem decodeLenWord_encodeWords (y : RawYarn) (h : y.WF)
    (hni : y.variant ≠ .inline) :
    decodeLenWord (encodeWords y) = y.bytes.length := by
  obtain ⟨v, p, bs⟩ := y
  obtain ⟨hb, hinl, hptr, hlen⟩ := h
  dsimp only at hb hinl hptr hlen hni ⊢
  cases v
  case inline => exact absurd rfl hni
  all_goals
    simp only [encodeWords, tagOf, decodeLenWord]
    omega

/-! ### Immortalization lemmas -/

theorem tryImmortalize_ok_iff (y : RawYarn) :
    (∃ z, tryImmortalize y = .ok z) ↔
      (y.variant = .static ∨ y.variant = .inline) := by
  obtain ⟨hv, p, bs⟩ := y
  cases hv <;> simp [tryImmortalize]

theorem tryImmortalize_err (y : RawYarn) (h1 : y.variant ≠ .static)
    (h2 : y.variant ≠ .inline) : tryImmortalize y = .error y := by
  obtain ⟨hv, p, bs⟩ := y
  cases hv <;> simp_all [tryImmortalize]

theorem tryImmortalize_ok_self (y z : RawYarn)
    (h : tryImmortalize y = .ok z) : z = y := by
  obtain ⟨hv, p, bs⟩ := y
  cases hv <;> simp_all [tryImmortalize]

theorem immortalizeRef_some_iff (r : YarnRef) :
    (immortalizeRef r).isSome ↔
      (r.rvariant = .static ∨ r.rvariant = .inline) := by
  obtain ⟨hv, p, bs⟩ := r
  cases hv <;> simp [immortalizeRef]

theorem immortalizeRef_none (r : YarnRef) (h1 : r.rvariant ≠ .static)
    (h2 : r.rvariant ≠ .inline) : immortalizeRef r = none := by
  obtain ⟨hv, p, bs⟩ := r
  cases hv <;> simp_all [immortalizeRef]

theorem immortalizeRef_some_self (r s : YarnRef)
    (h : immortalizeRef r = some s) : s = r := by
  obtain ⟨hv, p, bs⟩ := r
  cases hv <;> simp_all [immortalizeRef]

/-! ### Comparison lemmas -/

theorem byteCompare_refl (l : List Nat) : byteCompare l l = .eq := by
  induction l with
  | nil => rfl
  | cons a as ih => simp [byteCompare, ih]

/-! ### Decoder unfolding lemmas -/

theorem seqLen_pos {bs : List Nat} {n : Nat} (h : seqLen bs = some n) :
    1 ≤ n ∧ n ≤ bs.length := by
  rcases bs with _ | ⟨b0, tail⟩
  · simp [seqLen] at h
  · simp only [seqLen] at h
    repeat' split at h
    all_goals simp_all [List.length_cons]
    all_goals omega

theorem vplFuel_nil (f : Nat) : vplFuel f [] = 0 := by
  cases f <;> simp [vplFuel, seqLen]

theorem vplFuel_congr (f g : Nat) (bs : List Nat) (hf : bs.length ≤ f)
    (hg : bs.length ≤ g) : vplFuel f bs = vplFuel g bs := by
  induction f generalizing g bs with
  | zero =>
      have : bs = [] := List.length_eq_zero.mp (by omega)
      subst this
      rw [vplFuel_nil, vplFuel_nil]
  | succ f ih =>
      match g with
      | 0 =>
          have : bs = [] := List.length_eq_zero.mp (by omega)
          subst this
          rw [vplFuel_nil, vplFuel_nil]
      | g + 1 =>
          simp only [vplFuel]
          cases hsq : seqLen bs with
          | none => rfl
          | some n =>
              obtain ⟨h1, h2⟩ := seqLen_pos hsq
              have hd := List.length_drop n bs
              show n + vplFuel f (bs.drop n) = n + vplFuel g (bs.drop n)
              rw [ih g (bs.drop n) (by omega) (by omega)]

theorem validPrefixLen_none {bs : List Nat} (h : seqLen bs = none) :
    validPrefixLen bs = 0 := by
  unfold validPrefixLen
  cases bs with
  | nil => exact vplFuel_nil _
  | cons b tail =>
      simp only [List.length_cons, vplFuel, h]

theorem validPrefixLen_some {bs : List Nat} {n : Nat}
    (h : seqLen bs = some n) :
    validPrefixLen bs = n + validPrefixLen (bs.drop n) := by
  obtain ⟨h1, h2⟩ := seqLen_pos h
  unfold validPrefixLen
  cases bs with
  | nil => simp [seqLen] at h
  | cons b tail =>
      simp only [List.length_cons, vplFuel, h]
      congr 1
      apply vplFuel_congr
      · simp only [List.length_drop]
        simp only [List.length_cons] at h2 ⊢
        omega
      · exact le_refl _

theorem validPrefixLen_le (bs : List Nat) : validPrefixLen bs ≤ bs.length := by
  have key : ∀ f bs0, (bs0 : List Nat).length ≤ f →
      vplFuel f bs0 ≤ bs0.length := by
    intro f
    induction f with
    | zero => intro bs0 h; simp [vplFuel]
    | succ f ih =>
        intro bs0 h
        simp only [vplFuel]
        cases hsq : seqLen bs0 with
        | none => exact Nat.zero_le _
        | some n =>
            obtain ⟨h1, h2⟩ := seqLen_pos hsq
            have hih := ih (bs0.drop n) (by rw [List.length_drop]; omega)
            rw [List.length_drop] at hih
            show n + vplFuel f (bs0.drop n) ≤ bs0.length
            omega
  exact key bs.length bs (le_refl _)

theorem chunksFuel_congr (f g : Nat) (bs : List Nat) (hf : bs.length ≤ f)
    (hg : bs.length ≤ g) : chunksFuel f bs = chunksFuel g bs := by
  induction f generalizing g bs with
  | zero =>
      have : bs = [] := List.length_eq_zero.mp (by omega)
      subst this
      cases g <;> rfl
  | succ f ih =>
      match g with
      | 0 =>
          have : bs = [] := List.length_eq_zero.mp (by omega)
          subst this
          rfl
      | g + 1 =>
          cases bs with
          | nil => rfl
          | cons b tail =>
              simp only [chunksFuel]
              by_cases hz : validPrefixLen (b :: tail) = 0
              · simp only [hz, eq_self_iff_true, if_true]
                rw [ih g tail (by simp at hf ⊢; omega)
                  (by simp at hg ⊢; omega)]
              · simp only [if_neg hz]
                have hle := validPrefixLen_le (b :: tail)
                rw [ih g ((b :: tail).drop (validPrefixLen (b :: tail)))
                  (by rw [List.length_drop]
                      simp only [List.length_cons] at hf hle ⊢
                      omega)
                  (by rw [List.length_drop]
                      simp only [List.length_cons] at hg hle ⊢
                      omega)]

theorem utf8Chunks_nil : utf8Chunks [] = [] := rfl

theorem utf8Chunks_cons_zero {b : Nat} {tail : List Nat}
    (h : validPrefixLen (b :: tail) = 0) :
    utf8Chunks (b :: tail) = .invalid b :: utf8Chunks tail := by
  unfold utf8Chunks
  simp only [List.length_cons, chunksFuel, h, eq_self_iff_true, if_true]

theorem utf8Chunks_cons_pos {b : Nat} {tail : List Nat}
    (h : validPrefixLen (b :: tail) ≠ 0) :
    utf8Chunks (b :: tail) =
      .valid ((b :: tail).take (validPrefixLen (b :: tail))) ::
        utf8Chunks ((b :: tail).drop (validPrefixLen (b :: tail))) := by
  unfold utf8Chunks
  conv_lhs => rw [List.length_cons, chunksFuel]
  simp only [if_neg h]
  congr 1
  apply chunksFuel_congr
  · have hle := validPrefixLen_le (b :: tail)
    simp only [List.length_drop]
    simp only [List.length_cons] at hle ⊢
    omega
  · exact le_refl _

/-! ### Scalar sequences and the greedy scan -/

/-- A well-formed scalar sequence is exactly what `seqLen` accepts at the
head of any extension, and its whole length is consumed. -/
theorem scalar_append_seqLen (s t : List Nat) (h : isScalarSeq s = true) :
    seqLen (s ++ t) = some s.length := by
  rcases s with _ | ⟨a, _ | ⟨b, _ | ⟨c, _ | ⟨d, rest⟩⟩⟩⟩
  · simp [isScalarSeq] at h
  · simp only [isScalarSeq, decide_eq_true_eq] at h
    simp only [List.cons_append, List.nil_append, seqLen, if_pos h]
    rfl
  · simp only [isScalarSeq, Bool.and_eq_true, decide_eq_true_eq] at h
    obtain ⟨⟨ha1, ha2⟩, hb⟩ := h
    simp only [List.cons_append, List.nil_append, seqLen]
    rw [if_neg (by omega), if_neg (by omega), if_pos ha2]
    simp [hb]
  · simp only [isScalarSeq, Bool.and_eq_true, decide_eq_true_eq] at h
    obtain ⟨⟨⟨ha1, ha2⟩, hb⟩, hc⟩ := h
    simp only [List.cons_append, List.nil_append, seqLen]
    rw [if_neg (by omega), if_neg (by omega), if_neg (by omega),
      if_pos ha2]
    simp [hb, hc]
  · rcases rest with _ | ⟨e, rest⟩
    · simp only [isScalarSeq, Bool.and_eq_true, decide_eq_true_eq] at h
      obtain ⟨⟨⟨⟨ha1, ha2⟩, hb⟩, hc⟩, hd⟩ := h
      simp only [List.cons_append, List.nil_append, seqLen]
      rw [if_neg (by omega), if_neg (by omega), if_neg (by omega),
        if_neg (by omega), if_pos ha2]
      simp [hb, hc, hd]
    · simp [isScalarSeq] at h

/-- What `seqLen` accepts is a well-formed scalar sequence. -/
theorem seqLen_isScalarSeq {bs : List Nat} {n : Nat}
    (h : seqLen bs = some n) : isScalarSeq (bs.take n) = true := by
  rcases bs with _ | ⟨b0, tail⟩
  · simp [seqLen] at h
  · simp only [seqLen] at h
    by_cases h1 : b0 < 0x80
    · rw [if_pos h1] at h
      injection h with hn
      subst hn
      simp [isScalarSeq, h1]
    · rw [if_neg h1] at h
      by_cases h2 : b0 < 0xC2
      · rw [if_pos h2] at h
        exact Option.noConfusion h
      · rw [if_neg h2] at h
        by_cases h3 : b0 ≤ 0xDF
        · rw [if_pos h3] at h
          rcases tail with _ | ⟨b1, rest⟩
          · exact Option.noConfusion h
          · replace h : (if isCont b1 = true then some 2 else none) =
                some n := h
            by_cases hc : isCont b1 = true
            · rw [if_pos hc] at h
              injection h with hn
              subst hn
              show isScalarSeq [b0, b1] = true
              simp only [isScalarSeq, Bool.and_eq_true, decide_eq_true_eq]
              exact ⟨⟨by omega, h3⟩, hc⟩
            · rw [if_neg hc] at h
              exact Option.noConfusion h
        · rw [if_neg h3] at h
          by_cases h4 : b0 ≤ 0xEF
          · rw [if_pos h4] at h
            rcases tail with _ | ⟨b1, _ | ⟨b2, rest⟩⟩
            · exact Option.noConfusion h
            · exact Option.noConfusion h
            · replace h : (if (okE b0 b1 && isCont b2) = true then some 3
                  else none) = some n := h
              by_cases hok : (okE b0 b1 && isCont b2) = true
              · rw [if_pos hok] at h
                injection h with hn
                subst hn
                obtain ⟨hk1, hk2⟩ := Bool.and_eq_true_iff.mp hok
                show isScalarSeq [b0, b1, b2] = true
                simp only [isScalarSeq, Bool.and_eq_true, decide_eq_true_eq]
                exact ⟨⟨⟨by omega, h4⟩, hk1⟩, hk2⟩
              · rw [if_neg hok] at h
                exact Option.noConfusion h
          · rw [if_neg h4] at h
            by_cases h5 : b0 ≤ 0xF4
            · rw [if_pos h5] at h
              rcases tail with _ | ⟨b1, _ | ⟨b2, _ | ⟨b3, rest⟩⟩⟩
              · exact Option.noConfusion h
              · exact Option.noConfusion h
              · exact Option.noConfusion h
              · replace h : (if (okF b0 b1 && isCont b2 && isCont b3) = true
                    then some 4 else none) = some n := h
                by_cases hok : (okF b0 b1 && isCont b2 && isCont b3) = true
                · rw [if_pos hok] at h
                  injection h with hn
                  subst hn
                  obtain ⟨hk0, hk3⟩ := Bool.and_eq_true_iff.mp hok
                  obtain ⟨hk1, hk2⟩ := Bool.and_eq_true_iff.mp hk0
                  show isScalarSeq [b0, b1, b2, b3] = true
                  simp only [isScalarSeq, Bool.and_eq_true,
                    decide_eq_true_eq]
                  exact ⟨⟨⟨⟨by omega, h5⟩, hk1⟩, hk2⟩, hk3⟩
                · rw [if_neg hok] at h
                  exact Option.noConfusion h
            · rw [if_neg h5] at h
              exact Option.noConfusion h

/-- A well-formed buffer is fully consumed by the greedy scan. -/
theorem vpl_of_wf {bs : List Nat} (h : Utf8WF bs) :
    validPrefixLen bs = bs.length := by
  induction h with
  | nil => rfl
  | cons s rest hs hrest ih =>
      rw [validPrefixLen_some (scalar_append_seqLen s rest hs)]
      rw [List.drop_left, ih, List.length_append]

/-- A buffer fully consumed by the greedy scan is well-formed. -/
theorem wf_of_vpl_aux : ∀ (k : Nat) (bs : List Nat), bs.length ≤ k →
    validPrefixLen bs = bs.length → Utf8WF bs := by
  intro k
  induction k with
  | zero =>
      intro bs h1 h2
      have : bs = [] := List.length_eq_zero.mp (by omega)
      subst this
      exact .nil
  | succ k ih =>
      intro bs h1 h2
      cases hsq : seqLen bs with
      | none =>
          have h0 := validPrefixLen_none hsq
          have : bs = [] := List.length_eq_zero.mp (by omega)
          subst this
          exact .nil
      | some n =>
          obtain ⟨hn1, hn2⟩ := seqLen_pos hsq
          have hs := validPrefixLen_some hsq
          have hd := List.length_drop n bs
          have hvd := validPrefixLen_le (bs.drop n)
          have hwfd : Utf8WF (bs.drop n) :=
            ih (bs.drop n) (by omega) (by omega)
          have hsc := seqLen_isScalarSeq hsq
          have hsplit : bs = bs.take n ++ bs.drop n :=
            (List.take_append_drop n bs).symm
          rw [hsplit]
          exact Utf8WF.cons _ _ hsc hwfd

theorem wf_of_vpl {bs : List Nat} (h : validPrefixLen bs = bs.length) :
    Utf8WF bs := wf_of_vpl_aux bs.length bs (le_refl _) h

/-- Maximality: any well-formed prefix is no longer than the greedy scan. -/
theorem vpl_ge_of_wf (p : List Nat) (h : Utf8WF p) :
    ∀ t, p.length ≤ validPrefixLen (p ++ t) := by
  induction h with
  | nil => intro t; exact Nat.zero_le _
  | cons s rest hs hrest ih =>
      intro t
      rw [List.append_assoc]
      rw [validPrefixLen_some (scalar_append_seqLen s (rest ++ t) hs)]
      rw [List.drop_left]
      have := ih t
      simp only [List.length_append]
      omega

/-- The prefix emitted by the greedy scan is itself well-formed. -/
theorem wf_take_vpl_aux : ∀ (k : Nat) (bs : List Nat), bs.length ≤ k →
    Utf8WF (bs.take (validPrefixLen bs)) := by
  intro k
  induction k with
  | zero =>
      intro bs h1
      have : bs = [] := List.length_eq_zero.mp (by omega)
      subst this
      exact .nil
  | succ k ih =>
      intro bs h1
      cases hsq : seqLen bs with
      | none =>
          rw [validPrefixLen_none hsq]
          exact .nil
      | some n =>
          obtain ⟨hn1, hn2⟩ := seqLen_pos hsq
          rw [validPrefixLen_some hsq]
          rw [List.take_add]
          refine Utf8WF.cons _ _ (seqLen_isScalarSeq hsq) ?_
          exact ih (bs.drop n) (by rw [List.length_drop]; omega)

theorem wf_take_vpl (bs : List Nat) :
    Utf8WF (bs.take (validPrefixLen bs)) :=
  wf_take_vpl_aux bs.length bs (le_refl _)

/-! ### The decoder meets its specification -/

theorem chunksSpec_aux : ∀ (k : Nat) (bs : List Nat), bs.length ≤ k →
    ChunksSpec bs (utf8Chunks bs) := by
  intro k
  induction k with
  | zero =>
      intro bs h1
      have : bs = [] := List.length_eq_zero.mp (by omega)
      subst this
      exact .nil
  | succ k ih =>
      intro bs h1
      rcases bs with _ | ⟨b, tail⟩
      · exact .nil
      · by_cases hz : validPrefixLen (b :: tail) = 0
        · rw [utf8Chunks_cons_zero hz]
          refine ChunksSpec.bad b tail _ ?_ ?_
          · intro p hex hwf
            obtain ⟨t, ht⟩ := hex
            have hge := vpl_ge_of_wf p hwf t
            rw [ht, hz] at hge
            exact List.length_eq_zero.mp (by omega)
          · exact ih tail (by simp only [List.length_cons] at h1; omega)
        · rw [utf8Chunks_cons_pos hz]
          have hle := validPrefixLen_le (b :: tail)
          have htl : ((b :: tail).take (validPrefixLen (b :: tail))).length
              = validPrefixLen (b :: tail) := by
            rw [List.length_take]
            omega
          have happ := ChunksSpec.text
            ((b :: tail).take (validPrefixLen (b :: tail)))
            ((b :: tail).drop (validPrefixLen (b :: tail)))
            (utf8Chunks ((b :: tail).drop (validPrefixLen (b :: tail))))
            (by
              intro hemp
              have hl := congrArg List.length hemp
              rw [htl] at hl
              exact hz hl)
            (wf_take_vpl (b :: tail))
            (by
              intro p hex hwf
              obtain ⟨t, ht⟩ := hex
              rw [List.take_append_drop] at ht
              have hge := vpl_ge_of_wf p hwf t
              rw [ht] at hge
              rw [htl]
              exact hge)
            (ih ((b :: tail).drop (validPrefixLen (b :: tail)))
              (by
                rw [List.length_drop]
                simp only [List.length_cons] at h1 hle ⊢
                omega))
          rwa [List.take_append_drop] at happ

theorem chunksSpec (bs : List Nat) : ChunksSpec bs (utf8Chunks bs) :=
  chunksSpec_aux bs.length bs (le_refl _)

/-- The chunks concatenate back to the input. -/
theorem chunksSpec_flatten {bs : List Nat} {cs : List Chunk}
    (h : ChunksSpec bs cs) : cs.flatMap chunkBytes = bs := by
  induction h with
  | nil => rfl
  | text v rest cs hne hwf hmax hrest ih =>
      simp [chunkBytes, ih]
  | bad b rest cs hmax hrest ih =>
      simp [chunkBytes, ih]

theorem chunks_concat (bs : List Nat) :
    (utf8Chunks bs).flatMap chunkBytes = bs :=
  chunksSpec_flatten (chunksSpec bs)

/-- A byte that cannot start a sequence makes `seqLen` fail. -/
theorem noStart_seqLen {b : Nat} (tail : List Nat)
    (hb : noStart b = true) : seqLen (b :: tail) = none := by
  simp only [noStart, decide_eq_true_eq] at hb
  rcases hb with ⟨hb1, hb2⟩ | hb1
  · simp only [seqLen]
    rw [if_neg (by omega), if_pos (by omega)]
  · simp only [seqLen]
    rw [if_neg (by omega), if_neg (by omega), if_neg (by omega),
      if_neg (by omega), if_neg (by omega)]

/-- Entirely invalid input: one invalid-byte chunk per byte. -/
theorem chunks_all_invalid : ∀ (bs : List Nat),
    (∀ b ∈ bs, noStart b = true) → utf8Chunks bs = bs.map .invalid := by
  intro bs
  induction bs with
  | nil => intro _; rfl
  | cons b tail ih =>
      intro h
      have hsq := noStart_seqLen tail (h b (List.mem_cons_self b tail))
      have hz := validPrefixLen_none hsq
      rw [utf8Chunks_cons_zero hz,
        ih (fun x hx => h x (List.mem_cons_of_mem b hx))]
      rfl

/-! ### Display collapses maximal invalid runs -/

theorem collapse_dropWhile (cs : List Chunk) :
    collapse (cs.dropWhile isInvalidChunk) = stripBad (collapse cs) := by
  induction cs with
  | nil => rfl
  | cons c cs ih =>
      cases c with
      | valid v =>
          simp [List.dropWhile, isInvalidChunk, collapse, stripBad]
      | invalid b =>
          simp only [List.dropWhile, isInvalidChunk]
          rw [ih]
          simp only [collapse]
          cases hc : collapse cs with
          | nil => rfl
          | cons i is =>
              cases i with
              | text v => rfl
              | badRun n => rfl

theorem flatMap_collapse_invalid (b : Nat) (cs : List Chunk) :
    (collapse (.invalid b :: cs)).flatMap renderItem =
      repl ++ (stripBad (collapse cs)).flatMap renderItem := by
  simp only [collapse]
  cases hc : collapse cs with
  | nil => rfl
  | cons i is =>
      cases i with
      | text v => rfl
      | badRun n => rfl

theorem displayGoF_collapse (cs : List Chunk) :
    displayGoF false cs = (collapse cs).flatMap renderItem ∧
      displayGoF true cs =
        (collapse (cs.dropWhile isInvalidChunk)).flatMap renderItem := by
  induction cs with
  | nil => exact ⟨rfl, rfl⟩
  | cons c cs ih =>
      obtain ⟨ih1, ih2⟩ := ih
      cases c with
      | valid v =>
          constructor
          · simp [displayGoF, collapse, renderItem, ih1]
          · simp [displayGoF, List.dropWhile, isInvalidChunk, collapse,
              renderItem, ih1]
      | invalid b =>
          constructor
          · rw [flatMap_collapse_invalid, ← collapse_dropWhile]
            simp [displayGoF, ih2]
          · simp only [List.dropWhile, isInvalidChunk]
            simp [displayGoF, ih2]

/-- `Display` emits exactly one replacement character per maximal run of
invalid bytes. -/
theorem displayBytes_collapse (bs : List Nat) :
    displayBytes bs = (collapse (utf8Chunks bs)).flatMap renderItem :=
  (displayGoF_collapse (utf8Chunks bs)).1

/-- A non-empty well-formed buffer decodes as a single text chunk. -/
theorem utf8Chunks_of_wf {bs : List Nat} (h : Utf8WF bs) (hne : bs ≠ []) :
    utf8Chunks bs = [.valid bs] := by
  rcases bs with _ | ⟨b, tail⟩
  · exact absurd rfl hne
  · have hv := vpl_of_wf h
    have hz : validPrefixLen (b :: tail) ≠ 0 := by
      rw [hv]
      simp
    rw [utf8Chunks_cons_pos hz, hv]
    rw [List.take_length, List.drop_length]
    rfl

/-- `Debug` renders a well-formed buffer verbatim between quotes. -/
theorem debugBytes_of_wf {bs : List Nat} (h : Utf8WF bs) :
    debugBytes bs = 0x22 :: (bs ++ [0x22]) := by
  rcases hbs : bs with _ | ⟨b, tail⟩
  · rfl
  · rw [← hbs]
    unfold debugBytes
    rw [utf8Chunks_of_wf h (by rw [hbs]; simp)]
    simp [debugChunk]

/-- `Display` renders a well-formed buffer verbatim. -/
theorem displayBytes_of_wf {bs : List Nat} (h : Utf8WF bs) :
    displayBytes bs = bs := by
  rcases hbs : bs with _ | ⟨b, tail⟩
  · rfl
  · rw [← hbs]
    unfold displayBytes
    rw [utf8Chunks_of_wf h (by rw [hbs]; simp)]
    simp [displayGoF]

/-! ### Rendered format jobs are well-formed -/

/-- Encoding a Unicode scalar value yields one well-formed scalar
sequence. -/
theorem isScalarSeq_encodeChar (c : Nat) (h : isScalar c) :
    isScalarSeq (utf8EncodeChar c) = true := by
  obtain ⟨h1, h2⟩ := h
  unfold utf8EncodeChar
  by_cases c1 : c < 0x80
  · rw [if_pos c1]
    simp [isScalarSeq, c1]
  · rw [if_neg c1]
    by_cases c2 : c < 0x800
    · rw [if_pos c2]
      simp only [isScalarSeq, Bool.and_eq_true, decide_eq_true_eq, isCont]
      omega
    · rw [if_neg c2]
      by_cases c3 : c < 0x10000
      · rw [if_pos c3]
        simp only [isScalarSeq, Bool.and_eq_true, decide_eq_true_eq,
          isCont, okE]
        split_ifs <;> simp only [decide_eq_true_eq] <;> omega
      · rw [if_neg c3]
        simp only [isScalarSeq, Bool.and_eq_true, decide_eq_true_eq,
          isCont, okF]
        split_ifs <;> simp only [decide_eq_true_eq] <;> omega

/-- The rendering of a format job over scalar values is well-formed. -/
theorem renderFmt_wf (job : List Nat) (h : ∀ c ∈ job, isScalar c) :
    Utf8WF (renderFmt job) := by
  induction job with
  | nil => exact .nil
  | cons c cs ih =>
      have : renderFmt (c :: cs) = utf8EncodeChar c ++ renderFmt cs := by
        simp [renderFmt]
      rw [this]
      exact Utf8WF.cons _ _
        (isScalarSeq_encodeChar c (h c (List.mem_cons_self c cs)))
        (ih fun x hx => h x (List.mem_cons_of_mem c hx))

/-! ### Byte/text conversion lemmas -/

theorem bytesToText_ok_iff (bs : List Nat) :
    bytesToText bs = .ok bs ↔ Utf8WF bs := by
  unfold bytesToText
  constructor
  · intro h
    by_cases hv : validPrefixLen bs = bs.length
    · exact wf_of_vpl hv
    · rw [if_neg hv] at h
      exact Except.noConfusion h
  · intro h
    rw [if_pos (vpl_of_wf h)]

theorem bytesToText_error_iff (bs : List Nat) :
    bytesToText bs = .error bs ↔ ¬Utf8WF bs := by
  unfold bytesToText
  constructor
  · intro h hwf
    rw [if_pos (vpl_of_wf hwf)] at h
    exact Except.noConfusion h
  · intro h
    by_cases hv : validPrefixLen bs = bs.length
    · exact absurd (wf_of_vpl hv) h
    · rw [if_neg hv]

theorem bytesToText_total (bs : List Nat) :
    bytesToText bs = .ok bs ∨ bytesToText bs = .error bs := by
  unfold bytesToText
  by_cases hv : validPrefixLen bs = bs.length
  · left; rw [if_pos hv]
  · right; rw [if_neg hv]

/-! ## The claims -/

/-- C1: for every variant the packed representation occupies exactly two
machine words (both words of every well-formed encoding are below
`2 ^ 64`), and the optional wrapper has the same footprint as the handle:
the all-zero two-word pattern is reserved for "no value" and is never the
encoding of a present handle. -/
theorem claim_c1_two_words_and_niche :
    encodeOpt none = (0, 0) ∧
      ∀ y : RawYarn, y.WF →
        ((encodeWords y).1 < 2 ^ 64 ∧ (encodeWords y).2 < 2 ^ 64) ∧
          encodeOpt (some y) ≠ encodeOpt none := by
  refine ⟨rfl, fun y hy => ⟨encodeWords_bounds y hy, ?_⟩⟩
  show encodeWords y ≠ (0, 0)
  exact encodeWords_ne_zero y hy

theorem claim_c1_witness :
    (mkInline [0x41]).WF ∧
      (((encodeWords (mkInline [0x41])).1 < 2 ^ 64 ∧
          (encodeWords (mkInline [0x41])).2 < 2 ^ 64) ∧
        encodeOpt (some (mkInline [0x41])) ≠ encodeOpt none) :=
  ⟨by decide, claim_c1_two_words_and_niche.2 (mkInline [0x41]) (by decide)⟩

/-- C2: `try_immortalize` (owning handle) and `immortalize` (reference
handle) succeed iff the variant is `Static` or `Inline`; on failure the
owning form returns the original handle unchanged as the error value and
the reference form returns `none` — both total, no panic. -/
theorem claim_c2_immortalize :
    ∀ (y : RawYarn) (r : YarnRef),
      ((∃ z, tryImmortalize y = .ok z) ↔
        (y.variant = .static ∨ y.variant = .inline)) ∧
      (y.variant ≠ .static → y.variant ≠ .inline →
        tryImmortalize y = .error y) ∧
      (∀ z, tryImmortalize y = .ok z → z = y) ∧
      ((immortalizeRef r).isSome ↔
        (r.rvariant = .static ∨ r.rvariant = .inline)) ∧
      (r.rvariant ≠ .static → r.rvariant ≠ .inline →
        immortalizeRef r = none) :=
  fun y r =>
    ⟨tryImmortalize_ok_iff y, tryImmortalize_err y,
      fun z h => tryImmortalize_ok_self y z h,
      immortalizeRef_some_iff r, immortalizeRef_none r⟩

theorem claim_c2_witness :
    tryImmortalize ⟨.borrowed, 5, [1]⟩ = .error ⟨.borrowed, 5, [1]⟩ ∧
      immortalizeRef ⟨.borrowed, 5, [1]⟩ = none :=
  ⟨(claim_c2_immortalize ⟨.borrowed, 5, [1]⟩ ⟨.borrowed, 5, [1]⟩).2.1
      (by decide) (by decide),
    (claim_c2_immortalize ⟨.borrowed, 5, [1]⟩ ⟨.borrowed, 5, [1]⟩).2.2.2.2
      (by decide) (by decide)⟩

/-- C3: `Debug` renders well-formed runs verbatim inside quotes and each
invalid byte as a `\xNN` escape (the lone byte `0xFF` prints as `"\xFF"`
with quotes); `Display` renders well-formed runs verbatim and exactly one
replacement character per maximal invalid run (two adjacent invalid bytes
produce a single replacement character, not two). -/
theorem claim_c3_formatting :
    debugBytes [0xFF] = [0x22, 0x5C, 0x78, 0x46, 0x46, 0x22] ∧
      displayBytes [0xFF] = repl ∧
      displayBytes [0xFF, 0xFE] = repl ∧
      (∀ bs, displayBytes bs =
        (collapse (utf8Chunks bs)).flatMap renderItem) ∧
      ∀ bs, Utf8WF bs →
        debugBytes bs = 0x22 :: (bs ++ [0x22]) ∧ displayBytes bs = bs :=
  ⟨by decide, by decide, by decide, displayBytes_collapse,
    fun _ h => ⟨debugBytes_of_wf h, displayBytes_of_wf h⟩⟩

theorem claim_c3_witness :
    Utf8WF [0x41] ∧ debugBytes [0x41] = 0x22 :: ([0x41] ++ [0x22]) ∧
      displayBytes [0x41] = [0x41] :=
  have hwf : Utf8WF [0x41] := wf_of_vpl (by decide)
  ⟨hwf, (claim_c3_formatting.2.2.2.2 [0x41] hwf).1,
    (claim_c3_formatting.2.2.2.2 [0x41] hwf).2⟩

/-- C4: the chunk decoder meets its specification for every input — each
chunk is the longest non-empty well-formed prefix of the remaining input
or exactly one invalid byte when no such prefix exists, and the chunks
concatenate back to the input; empty input yields zero chunks, input of
bytes that cannot start a sequence yields one invalid chunk per byte, and
`[A, FF, B]` yields the three chunks text `A`, invalid `FF`, text `B`. -/
theorem claim_c4_chunk_decoder :
    (∀ bs, ChunksSpec bs (utf8Chunks bs)) ∧
      (∀ bs, (utf8Chunks bs).flatMap chunkBytes = bs) ∧
      utf8Chunks [] = [] ∧
      (∀ bs, (∀ b ∈ bs, noStart b = true) →
        utf8Chunks bs = bs.map .invalid) ∧
      utf8Chunks [0x41, 0xFF, 0x42] =
        [.valid [0x41], .invalid 0xFF, .valid [0x42]] :=
  ⟨chunksSpec, chunks_concat, rfl, chunks_all_invalid, by decide⟩

theorem claim_c4_witness :
    (∀ b ∈ [0x80, 0xFF], noStart b = true) ∧
      utf8Chunks [0x80, 0xFF] = [.invalid 0x80, .invalid 0xFF] :=
  ⟨by decide, by
    rw [claim_c4_chunk_decoder.2.2.2.1 [0x80, 0xFF] (by decide)]
    rfl⟩

/-- C5: the `yarn!` macro's format arm calls `from_fmt`, which renders
the job into a freshly allocated buffer and returns a handle whose
variant is `Owned` and whose bytes are the rendering. -/
theorem claim_c5_yarn_fmt_owned :
    ∀ job, (yarnMacroFmt job).variant = .owned ∧
      (yarnMacroFmt job).bytes = renderFmt job ∧
      (yarnMacroFmt job).ptr = freshPtr :=
  fun _ => ⟨rfl, rfl, rfl⟩

/-- C6: byte-to-text conversion fails iff the bytes are not well-formed
text; on failure the caller receives the original bytes back unchanged
(total function, no panic); text-to-byte conversion never fails and
yields the same bytes. -/
theorem claim_c6_conversions :
    ∀ bs : List Nat,
      (bytesToText bs = .error bs ↔ ¬Utf8WF bs) ∧
      ((∃ e, bytesToText bs = .error e) → bytesToText bs = .error bs) ∧
      (Utf8WF bs → bytesToText bs = .ok bs) ∧
      textToBytes bs = bs := by
  intro bs
  refine ⟨bytesToText_error_iff bs, ?_, (bytesToText_ok_iff bs).mpr, rfl⟩
  intro he
  obtain ⟨e, he⟩ := he
  rcases bytesToText_total bs with h | h
  · rw [h] at he
    exact Except.noConfusion he
  · exact h

theorem claim_c6_witness :
    bytesToText [0xFF] = .error [0xFF] ∧
      bytesToText [0x41] = .ok [0x41] :=
  ⟨(claim_c6_conversions [0xFF]).2.1 ⟨[0xFF], rfl⟩,
    (claim_c6_conversions [0x41]).2.2.1 (wf_of_vpl (by decide))⟩

/-- C7: equality, ordering and hashing are byte-wise over `asSlice`,
independent of the backing variant: any two handles with identical byte
views — in particular with different variants — compare equal, compare
`Ordering.eq`, and hash identically. -/
theorem claim_c7_eq_ord_hash :
    ∀ y z : RawYarn, y.asSlice = z.asSlice →
      yarnBeq y z = true ∧ yarnCmp y z = .eq ∧ yarnHash y = yarnHash z := by
  intro y z h
  refine ⟨?_, ?_, ?_⟩
  · unfold yarnBeq
    rw [h]
    simp
  · unfold yarnCmp
    rw [h]
    exact byteCompare_refl _
  · unfold yarnHash
    rw [h]

theorem claim_c7_witness :
    yarnBeq ⟨.inline, 0, [1, 2]⟩ ⟨.borrowed, 7, [1, 2]⟩ = true ∧
      yarnCmp ⟨.inline, 0, [1, 2]⟩ ⟨.borrowed, 7, [1, 2]⟩ = .eq ∧
      yarnHash (⟨.inline, 0, [1, 2]⟩ : RawYarn) =
        yarnHash ⟨.borrowed, 7, [1, 2]⟩ :=
  claim_c7_eq_ord_hash ⟨.inline, 0, [1, 2]⟩ ⟨.borrowed, 7, [1, 2]⟩ rfl

/-- C8: round trips — for any byte sequence under the inline threshold,
reading the bytes back out of the packed two-word inline encoding yields
exactly the input; for any well-formed text, converting text to bytes and
back to text succeeds and yields the text unchanged. -/
theorem claim_c8_round_trip :
    (∀ bs, (∀ b ∈ bs, b < 256) → bs.length ≤ inlineThreshold →
      decodeInline (encodeWords (mkInline bs)) = bs) ∧
      ∀ t, Utf8WF t → bytesToText (textToBytes t) = .ok t := by
  refine ⟨decodeInline_encode, fun t h => ?_⟩
  show bytesToText t = .ok t
  exact (bytesToText_ok_iff t).mpr h

theorem claim_c8_witness :
    decodeInline (encodeWords (mkInline [7, 8, 9])) = [7, 8, 9] ∧
      bytesToText (textToBytes [0x41]) = .ok [0x41] :=
  ⟨claim_c8_round_trip.1 [7, 8, 9] (by decide) (by decide),
    claim_c8_round_trip.2 [0x41] (wf_of_vpl (by decide))⟩

/-- C9: threshold boundary — `from_borrowed` yields `Borrowed` exactly
when the length exceeds the 15-byte inline threshold and `Inline`
otherwise (so borrowing is never used when inlining is possible);
`from_static` behaves likewise with `Static`; `from_owned_bytes` is
always `Owned`; hence a 15-byte input constructs as `Inline` and a
16-byte one as `Borrowed` or `Owned` depending on the constructor. -/
theorem claim_c9_threshold :
    ∀ (p : Nat) (bs : List Nat),
      ((fromBorrowed p bs).variant = .borrowed ↔
        inlineThreshold < bs.length) ∧
      (bs.length ≤ inlineThreshold →
        (fromBorrowed p bs).variant = .inline ∧
          (fromStatic p bs).variant = .inline) ∧
      (inlineThreshold < bs.length →
        (fromBorrowed p bs).variant = .borrowed ∧
          (fromStatic p bs).variant = .static) ∧
      (fromOwnedBytes p bs).variant = .owned := by
  intro p bs
  unfold fromBorrowed fromStatic fromOwnedBytes
  by_cases h : bs.length ≤ inlineThreshold
  · rw [if_pos h, if_pos h]
    refine ⟨?_, fun _ => ⟨rfl, rfl⟩, fun hc => absurd h (by omega), rfl⟩
    simp only [mkInline]
    constructor
    · intro hv
      exact absurd hv (by simp)
    · intro hl
      exact absurd h (by omega)
  · rw [if_neg h, if_neg h]
    refine ⟨?_, fun hc => absurd hc h, fun _ => ⟨rfl, rfl⟩, rfl⟩
    constructor
    · intro _
      omega
    · intro _
      trivial

theorem claim_c9_witness :
    (fromBorrowed 3 (List.replicate 15 0)).variant = .inline ∧
      (fromBorrowed 3 (List.replicate 16 0)).variant = .borrowed ∧
      (fromStatic 3 (List.replicate 16 0)).variant = .static ∧
      (fromOwnedBytes 3 (List.replicate 16 0)).variant = .owned :=
  ⟨((claim_c9_threshold 3 (List.replicate 15 0)).2.1 (by decide)).1,
    ((claim_c9_threshold 3 (List.replicate 16 0)).2.2.1 (by decide)).1,
    ((claim_c9_threshold 3 (List.replicate 16 0)).2.2.1 (by decide)).2,
    (claim_c9_threshold 3 (List.replicate 16 0)).2.2.2⟩

/-- C10: the `byarn!` macro's format arm renders through the text-kind
handle and converts with `into_bytes`, so for any format job over
Unicode scalar values the resulting bytes are well-formed UTF-8 and the
fallible byte-to-text conversion on the result always succeeds. -/
theorem claim_c10_byarn_wf :
    ∀ job, (∀ c ∈ job, isScalar c) →
      byarnMacroFmt job = intoBytes (yarnMacroFmt job) ∧
      Utf8WF (byarnMacroFmt job).bytes ∧
      bytesToText (byarnMacroFmt job).bytes = .ok (renderFmt job) := by
  intro job h
  refine ⟨rfl, renderFmt_wf job h, ?_⟩
  show bytesToText (renderFmt job) = .ok (renderFmt job)
  exact (bytesToText_ok_iff _).mpr (renderFmt_wf job h)

theorem claim_c10_witness :
    Utf8WF (byarnMacroFmt [0x41, 0x20AC]).bytes ∧
      bytesToText (byarnMacroFmt [0x41, 0x20AC]).bytes =
        .ok (renderFmt [0x41, 0x20AC]) :=
  ⟨(claim_c10_byarn_wf [0x41, 0x20AC] (by decide)).2.1,
    (claim_c10_byarn_wf [0x41, 0x20AC] (by decide)).2.2⟩

end ByteYarn
